import Mathlib

/-!
Shallow embedding of the SelectorFramework pipeline kernel
(`src/core/Kernel.cc`) and verification of its specification.

The embedding covers:
* the tri-state `Algorithm::Status` and the cycle loop of
  `Pipeline::process` (lines 249-263), including the `runningReaders`
  bookkeeping done by `makeAlg` and the loop;
* the typed registry lookup `Pipeline::getThing` (lines 157-178) together
  with the `Algorithm::getTag` default (lines 55-58);
* the output-file map operations `Pipeline::makeOutFile` (lines 204-216)
  and `Pipeline::getOutFile` (lines 218-221);
* the `SimpleAlg<ReaderT>` adapter (lines 293-306);
* the `Node::do_connect` back-reference protocol (lines 28-32) as driven
  by `Pipeline::process` (lines 243-247).

Stateful C++ is modelled by explicit state passing; exceptions by
`Except`; the unbounded `while (true)` loop by an explicit fuel
parameter (`runLoop fuel` returns `none` when the loop does not stop
within `fuel` iterations).
-/

namespace SelectorKernel

/-- `Algorithm::Status` (Kernel.cc line 46). -/
inductive Status where
  | Continue : Status
  | SkipToNext : Status
  | EndOfFile : Status
deriving DecidableEq

/-- An algorithm, as seen by the cycle loop: its `isReader()` flag and the
behaviour of `execute()`, given as the status returned by the n-th
invocation (0-based).  The invocation counter is the explicit-state
rendering of the algorithm's internal mutable state. -/
structure Alg where
  isReader : Bool
  execute : Nat → Status

/-- The loop-relevant state of a `Pipeline`: per-algorithm invocation
counters (indexed by registration position) and the `runningReaders` set
(Kernel.cc line 124), holding registration positions of still-active
readers. -/
structure PState where
  counts : Nat → Nat
  running : Finset Nat

/-- Result of one pass of the inner `for` loop of `Pipeline::process`
(Kernel.cc lines 250-259): the updated state, the registration positions
whose `execute()` was invoked (in invocation order), and whether the pass
was aborted by a `SkipToNext` (`break`, line 256). -/
structure CycleRes where
  state : PState
  trace : List Nat
  aborted : Bool

/-- One pass of the inner `for` loop of `Pipeline::process` over the
registered algorithms `(position, algorithm)` in registration order:
a reader no longer in `runningReaders` is skipped (line 251-252);
otherwise `execute()` is invoked (line 254); `SkipToNext` breaks out of
the pass (lines 255-256); `EndOfFile` erases the algorithm from
`runningReaders` and the pass continues (lines 257-258). -/
def runCycle : List (Nat × Alg) → PState → CycleRes
  | [], st => ⟨st, [], false⟩
  | (i, a) :: rest, st =>
    if a.isReader = true ∧ i ∉ st.running then
      runCycle rest st
    else
      match a.execute (st.counts i) with
      | Status.SkipToNext =>
          ⟨⟨Function.update st.counts i (st.counts i + 1), st.running⟩, [i], true⟩
      | Status.EndOfFile =>
          let r := runCycle rest
            ⟨Function.update st.counts i (st.counts i + 1), st.running.erase i⟩
          ⟨r.state, i :: r.trace, r.aborted⟩
      | Status.Continue =>
          let r := runCycle rest
            ⟨Function.update st.counts i (st.counts i + 1), st.running⟩
          ⟨r.state, i :: r.trace, r.aborted⟩

/-- Result of the terminating `while (true)` loop: the number of passes
of the loop body that were run, the final state and the trace of each
pass. -/
structure LoopRes where
  cycles : Nat
  state : PState
  traces : List (List Nat)

/-- The `while (true)` loop of `Pipeline::process` (lines 249-263),
with explicit fuel: after each pass of the body, the loop exits iff
`runningReaders` is empty (lines 261-262).  `none` means the loop did
not stop within `fuel` passes. -/
def runLoop (ps : List (Nat × Alg)) : Nat → PState → Option LoopRes
  | 0, _ => none
  | fuel + 1, st =>
      let r := runCycle ps st
      if r.state.running = ∅ then
        some ⟨1, r.state, [r.trace]⟩
      else
        match runLoop ps fuel r.state with
        | none => none
        | some l => some ⟨l.cycles + 1, l.state, r.trace :: l.traces⟩

/-- Pair every element of a list with its position, starting at `n`. -/
def withIdx : Nat → List Alg → List (Nat × Alg)
  | _, [] => []
  | n, a :: rest => (n, a) :: withIdx (n + 1) rest

/-- The registered algorithms of a pipeline, paired with their
registration positions (the iteration order of `algVec`). -/
def pairsOf (algs : List Alg) : List (Nat × Alg) := withIdx 0 algs

/-- The positions of the reader-flagged algorithms among `ps`.  This is
the content of `runningReaders` right after registration: `makeAlg`
(Kernel.cc lines 145-146) inserts exactly the readers. -/
def readersOf (ps : List (Nat × Alg)) : Finset Nat :=
  ((ps.filter (fun p => p.2.isReader)).map Prod.fst).toFinset

/-- Pipeline state when `process` reaches the cycle loop: no algorithm
has been executed yet and `runningReaders` holds every reader. -/
def initState (algs : List Alg) : PState :=
  ⟨fun _ => 0, readersOf (pairsOf algs)⟩

/-- The cycle loop of `Pipeline::process(inFiles)` for a pipeline whose
registered algorithms are `algs`, with the given fuel. -/
def processLoop (algs : List Alg) (fuel : Nat) : Option LoopRes :=
  runLoop (pairsOf algs) fuel (initState algs)

/-- Iterating the loop body (ignoring the stop check): the state after
`c` passes. -/
def iterCycle (ps : List (Nat × Alg)) (st : PState) : Nat → PState
  | 0 => st
  | c + 1 => (runCycle ps (iterCycle ps st c)).state

/-- No registered algorithm ever returns `SkipToNext`. -/
def NoSkipP (ps : List (Nat × Alg)) : Prop :=
  ∀ p ∈ ps, ∀ n, (p.2).execute n ≠ Status.SkipToNext

/-- A reader that returns `Continue` on its first `k - 1` invocations and
`EndOfFile` on invocation number `k` (1-based), i.e. on 0-based
invocation `k - 1`. -/
def ReaderProfile (a : Alg) (k : Nat) : Prop :=
  1 ≤ k ∧ (∀ n, n + 1 < k → a.execute n = Status.Continue) ∧
    a.execute (k - 1) = Status.EndOfFile

/-- The cycle loop of `process` terminates (for some fuel). -/
def Terminates (algs : List Alg) : Prop :=
  ∃ fuel l, processLoop algs fuel = some l

/-! ### Registry lookup (`Pipeline::getThing`, Kernel.cc lines 157-202) -/

/-- The errors raised by the kernel, each tagged with the data its
`runtime_error` message carries: `notFound` is
`"getThing() couldn't find %s"` with the requested type's name
(line 168), `notImplemented` is
`"getTag not implemented for this algorithm"` (line 57), and
`alreadyOpened` is `"file %s already opened"` with the file's logical
name (line 211). -/
inductive KErr where
  | notFound : String → KErr
  | notImplemented : KErr
  | alreadyOpened : String → KErr
deriving DecidableEq

/-- A registered component as seen by a lookup for one fixed requested
type `T`: whether `dynamic_cast<T*>` on it succeeds is supplied
separately as a predicate, and `tag` is the value of its `getTag()`
override, `none` when the component's type does not override `getTag`
(so the base `Algorithm::getTag`, lines 55-58, is reached). -/
structure Comp where
  tag : Option Int
deriving DecidableEq

/-- Decidable equality of `Except` results, for evaluating concrete
lookups. -/
instance exceptDecEq {e a : Type} [DecidableEq e] [DecidableEq a] :
    DecidableEq (Except e a) := fun x y =>
  match x, y with
  | Except.error a1, Except.error a2 =>
      if h : a1 = a2 then isTrue (congrArg Except.error h)
      else isFalse (fun hc => h (Except.error.inj hc))
  | Except.error _, Except.ok _ => isFalse (fun hc => Except.noConfusion hc)
  | Except.ok _, Except.error _ => isFalse (fun hc => Except.noConfusion hc)
  | Except.ok a1, Except.ok a2 =>
      if h : a1 = a2 then isTrue (congrArg Except.ok h)
      else isFalse (fun hc => h (Except.ok.inj hc))

/-- `Algorithm::getTag` (Kernel.cc lines 52, 55-58): the override's
value when present, otherwise the base implementation throws the
not-implemented error. -/
def getTag (c : Comp) : Except KErr Int :=
  match c.tag with
  | some t => Except.ok t
  | none => Except.error KErr.notImplemented

/-- `Pipeline::getThing(vec, pred)` (Kernel.cc lines 157-169): linear
scan in registration order; for each component on which the
`dynamic_cast` to the requested type succeeds (`castT`), apply the
optional predicate — whose evaluation may itself throw, as the
tag-comparing predicate does — and return the first hit; throw the
not-found error naming the requested type when the scan exhausts. -/
def getThing (tyName : String) (castT : Comp → Bool)
    (pred : Option (Comp → Except KErr Bool)) : List Comp → Except KErr Comp
  | [] => Except.error (KErr.notFound tyName)
  | c :: rest =>
    if castT c then
      match pred with
      | none => Except.ok c
      | some p =>
        match p c with
        | Except.error e => Except.error e
        | Except.ok b => if b then Except.ok c else getThing tyName castT pred rest
    else getThing tyName castT pred rest

/-- The predicate built by the tag overload of `getThing`
(Kernel.cc lines 174-176): compare the component's `getTag()` to the
requested tag; the `getTag()` call may throw. -/
def tagPred (tag : Int) (c : Comp) : Except KErr Bool :=
  match getTag c with
  | Except.error e => Except.error e
  | Except.ok t => Except.ok (t == tag)

/-- The tag overload of `Pipeline::getThing` (Kernel.cc lines 171-178). -/
def getThingByTag (tyName : String) (castT : Comp → Bool) (tag : Int)
    (vec : List Comp) : Except KErr Comp :=
  getThing tyName castT (some (tagPred tag)) vec

/-- `Pipeline::getAlg` (lines 180-184) delegates to `getThing` over
`algVec`. -/
def getAlg (tyName : String) (castT : Comp → Bool)
    (pred : Option (Comp → Except KErr Bool)) (algVec : List Comp) :
    Except KErr Comp :=
  getThing tyName castT pred algVec

/-- `Pipeline::getTool` (lines 192-196) delegates to `getThing` over
`toolVec`. -/
def getTool (tyName : String) (castT : Comp → Bool)
    (pred : Option (Comp → Except KErr Bool)) (toolVec : List Comp) :
    Except KErr Comp :=
  getThing tyName castT pred toolVec

/-! ### Output-file map (`Pipeline::makeOutFile` / `getOutFile`,
Kernel.cc lines 204-221) -/

/-- A `TFile` opened for output: `new TFile(path, "RECREATE")`
(Kernel.cc line 214). -/
structure OutFile where
  path : String
  mode : String
deriving DecidableEq

/-- The `outFileMap` (Kernel.cc line 121): logical name to owned
handle.  An entry's value is `none` when the `unique_ptr` is null (the
default-constructed entry `std::map::operator[]` inserts). -/
abbrev OutMap : Type := List (String × Option OutFile)

/-- `std::map::find`-style lookup: `none` when no entry exists under the
key, `some v` when an entry with value `v` exists. -/
def lookupKey (k : String) : OutMap → Option (Option OutFile)
  | [] => none
  | (k1, v) :: rest => if k1 = k then some v else lookupKey k rest

/-- Bind `k` to `v`: overwrite the existing entry, or append a new one
(`std::map::operator[]` followed by assignment). -/
def insertKey (m : OutMap) (k : String) (v : Option OutFile) : OutMap :=
  match m with
  | [] => [(k, v)]
  | (k1, v1) :: rest =>
    if k1 = k then (k, v) :: rest else (k1, v1) :: insertKey rest k v

/-- `std::map::erase(it)`: drop the entry under `k` (a `std::map` holds
at most one). -/
def eraseKey (m : OutMap) (k : String) : OutMap :=
  match m with
  | [] => []
  | (k1, v1) :: rest =>
    if k1 = k then eraseKey rest k else (k1, v1) :: eraseKey rest k

/-- `Pipeline::makeOutFile(path, name, reopen)` (Kernel.cc lines
204-216), returning the map after the call together with the call's
outcome.  When `name` is already bound: with `reopen` the old entry is
erased — releasing (closing) the previously bound handle — before the
new file is created and bound; without `reopen` the already-opened
error is thrown and the map is left untouched. -/
def makeOutFile (m : OutMap) (path name : String) (reopen : Bool) :
    OutMap × Except KErr OutFile :=
  match lookupKey name m with
  | some _ =>
    if reopen then
      (insertKey (eraseKey m name) name (some ⟨path, ("RECREATE")⟩),
       Except.ok ⟨path, ("RECREATE")⟩)
    else
      (m, Except.error (KErr.alreadyOpened name))
  | none =>
      (insertKey m name (some ⟨path, ("RECREATE")⟩),
       Except.ok ⟨path, ("RECREATE")⟩)

/-- `Pipeline::getOutFile(name)` (Kernel.cc lines 218-221):
`outFileMap[name].get()`.  `operator[]` default-inserts a null
`unique_ptr` when `name` is unbound, and `.get()` on it is the null
handle (`none`). -/
def getOutFile (m : OutMap) (name : String) : OutMap × Option OutFile :=
  match lookupKey name m with
  | some v => (m, v)
  | none => (insertKey m name none, none)

/-! ### The `SimpleAlg<ReaderT>` adapter (Kernel.cc lines 281-306) -/

/-- The face a reader type presents to `SimpleAlg`: a readiness flag
(`ready()`) and the current payload (the `data` member). -/
structure MockReader (D : Type) where
  ready : Bool
  data : D

/-- `SimpleAlg<ReaderT>::connect` (Kernel.cc lines 293-297):
`reader = pipeline.getAlg<ReaderT>()`, a lookup of the reader type with
no predicate over the registered algorithms. -/
def simpleConnect (tyName : String) (algVec : List Comp)
    (castR : Comp → Bool) : Except KErr Comp :=
  getThing tyName castR none algVec

/-- `SimpleAlg<ReaderT>::execute` (Kernel.cc lines 299-306): when the
bound reader is ready, return `consume` of its payload; otherwise
return `Continue`. -/
def simpleExecute {D : Type} (r : MockReader D) (consume : D → Status) :
    Status :=
  if r.ready then consume r.data else Status.Continue

/-! ### Node back-reference (`Node::do_connect`, Kernel.cc lines 28-32,
driven by `Pipeline::process`, lines 243-247) -/

/-- The back-reference state of a `Node`: `pipe` is `pipe_` (line 38;
`none` until first assigned — the raw pointer is not initialized by the
constructor) and `assignments` counts how many times `pipe_ = &pipeline`
(line 30) has run on this node. -/
structure NodeSt where
  pipe : Option Nat
  assignments : Nat
deriving DecidableEq

/-- A freshly constructed `Node` (Kernel.cc line 21): `pipe_` not yet
assigned. -/
def mkNode : NodeSt := ⟨none, 0⟩

/-- `Node::do_connect(pipeline)` (Kernel.cc lines 28-32): assign the
back-reference, then run the virtual `connect` hook (which does not
touch `pipe_`). -/
def do_connect (pid : Nat) (n : NodeSt) : NodeSt :=
  ⟨some pid, n.assignments + 1⟩

/-- `Pipeline::makeAlg` / `makeTool` (Kernel.cc lines 131-155):
construct the component and append it to the owned collection.  Neither
assigns `pipe_`. -/
def makeAlgNode (vec : List NodeSt) : List NodeSt := vec ++ [mkNode]

/-- The connect phase of `Pipeline::process` (Kernel.cc lines 243-247):
`do_connect(*this)` on every registered component, in order. -/
def connectPhase (pid : Nat) (vec : List NodeSt) : List NodeSt :=
  vec.map (do_connect pid)

/-! ### Concrete components used by witnesses and counterexamples -/

/-- A non-reader algorithm that always continues. -/
def cAlg : Alg := ⟨false, fun _ => Status.Continue⟩

/-- A non-reader algorithm that always vetoes (`SkipToNext`). -/
def sAlg : Alg := ⟨false, fun _ => Status.SkipToNext⟩

/-- A reader that reports `EndOfFile` at once. -/
def eAlg : Alg := ⟨true, fun _ => Status.EndOfFile⟩

/-- A reader that ends after 2 invocations. -/
def rdr2 : Alg := ⟨true, fun n => if n + 1 < 2 then Status.Continue else Status.EndOfFile⟩

/-- A reader that ends after 3 invocations. -/
def rdr3 : Alg := ⟨true, fun n => if n + 1 < 3 then Status.Continue else Status.EndOfFile⟩

/-- The empty pipeline state (fresh counters, no running readers). -/
def pst0 : PState := ⟨fun _ => 0, ∅⟩

/-- The state the `EndOfFile` branch of the cycle loop hands to the rest
of the pass: the executed algorithm's counter is bumped and its position
erased from `runningReaders` (Kernel.cc lines 254, 257-258). -/
def afterEOF (st : PState) (i : Nat) : PState :=
  ⟨Function.update st.counts i (st.counts i + 1), st.running.erase i⟩

end SelectorKernel

namespace SelectorKernel

theorem runCycle_nil (st : PState) : runCycle [] st = ⟨st, [], false⟩ := rfl

theorem runCycle_cons_skip (i : Nat) (a : Alg) (rest : List (Nat × Alg)) (st : PState)
    (hc : a.isReader = true ∧ i ∉ st.running) :
    runCycle ((i, a) :: rest) st = runCycle rest st := by
  rw [runCycle, if_pos hc]

theorem runCycle_cons_continue (i : Nat) (a : Alg) (rest : List (Nat × Alg)) (st : PState)
    (hc : ¬(a.isReader = true ∧ i ∉ st.running))
    (hs : a.execute (st.counts i) = Status.Continue) :
    runCycle ((i, a) :: rest) st =
      ⟨(runCycle rest ⟨Function.update st.counts i (st.counts i + 1), st.running⟩).state,
       i :: (runCycle rest ⟨Function.update st.counts i (st.counts i + 1), st.running⟩).trace,
       (runCycle rest ⟨Function.update st.counts i (st.counts i + 1), st.running⟩).aborted⟩ := by
  rw [runCycle, if_neg hc, hs]

theorem runCycle_cons_eof (i : Nat) (a : Alg) (rest : List (Nat × Alg)) (st : PState)
    (hc : ¬(a.isReader = true ∧ i ∉ st.running))
    (hs : a.execute (st.counts i) = Status.EndOfFile) :
    runCycle ((i, a) :: rest) st =
      ⟨(runCycle rest (afterEOF st i)).state,
       i :: (runCycle rest (afterEOF st i)).trace,
       (runCycle rest (afterEOF st i)).aborted⟩ := by
  rw [runCycle, if_neg hc, hs]
  rfl

theorem runCycle_cons_stn (i : Nat) (a : Alg) (rest : List (Nat × Alg)) (st : PState)
    (hc : ¬(a.isReader = true ∧ i ∉ st.running))
    (hs : a.execute (st.counts i) = Status.SkipToNext) :
    runCycle ((i, a) :: rest) st =
      ⟨⟨Function.update st.counts i (st.counts i + 1), st.running⟩, [i], true⟩ := by
  rw [runCycle, if_neg hc, hs]

end SelectorKernel

namespace SelectorKernel

theorem runCycle_append (xs ys : List (Nat × Alg)) (st : PState) :
    runCycle (xs ++ ys) st =
      if (runCycle xs st).aborted = true then runCycle xs st
      else ⟨(runCycle ys (runCycle xs st).state).state,
            (runCycle xs st).trace ++ (runCycle ys (runCycle xs st).state).trace,
            (runCycle ys (runCycle xs st).state).aborted⟩ := by
  induction xs generalizing st with
  | nil => simp [runCycle_nil]
  | cons p rest ih =>
    obtain ⟨i, a⟩ := p
    by_cases hc : a.isReader = true ∧ i ∉ st.running
    · rw [List.cons_append, runCycle_cons_skip i a (rest ++ ys) st hc,
        runCycle_cons_skip i a rest st hc, ih]
    · rcases hs : a.execute (st.counts i) with _ | _ | _
      · rw [List.cons_append, runCycle_cons_continue i a (rest ++ ys) st hc hs,
          runCycle_cons_continue i a rest st hc hs, ih]
        by_cases hb : (runCycle rest ⟨Function.update st.counts i (st.counts i + 1), st.running⟩).aborted = true
        · simp [hb]
        · simp [hb]
      · rw [List.cons_append, runCycle_cons_stn i a (rest ++ ys) st hc hs,
          runCycle_cons_stn i a rest st hc hs]
        simp
      · rw [List.cons_append, runCycle_cons_eof i a (rest ++ ys) st hc hs,
          runCycle_cons_eof i a rest st hc hs, ih]
        by_cases hb : (runCycle rest (afterEOF st i)).aborted = true
        · simp [hb]
        · simp [hb]

theorem runCycle_running_subset (ps : List (Nat × Alg)) (st : PState) :
    (runCycle ps st).state.running ⊆ st.running := by
  induction ps generalizing st with
  | nil => simp [runCycle_nil]
  | cons p rest ih =>
    obtain ⟨i, a⟩ := p
    by_cases hc : a.isReader = true ∧ i ∉ st.running
    · rw [runCycle_cons_skip i a rest st hc]; exact ih st
    · rcases hs : a.execute (st.counts i) with _ | _ | _
      · rw [runCycle_cons_continue i a rest st hc hs]
        exact ih _
      · rw [runCycle_cons_stn i a rest st hc hs]
      · rw [runCycle_cons_eof i a rest st hc hs]
        refine Finset.Subset.trans (ih _) ?_
        exact Finset.erase_subset i st.running

theorem runCycle_trace_mem (ps : List (Nat × Alg)) (st : PState) :
    ∀ j ∈ (runCycle ps st).trace, j ∈ ps.map Prod.fst := by
  induction ps generalizing st with
  | nil => simp [runCycle_nil]
  | cons p rest ih =>
    obtain ⟨i, a⟩ := p
    by_cases hc : a.isReader = true ∧ i ∉ st.running
    · rw [runCycle_cons_skip i a rest st hc]
      intro j hj
      exact List.mem_cons_of_mem _ (ih st j hj)
    · rcases hs : a.execute (st.counts i) with _ | _ | _
      · rw [runCycle_cons_continue i a rest st hc hs]
        intro j hj
        rcases List.mem_cons.mp hj with h | h
        · simp [h]
        · exact List.mem_cons_of_mem _ (ih _ j h)
      · rw [runCycle_cons_stn i a rest st hc hs]
        intro j hj
        simp at hj
        simp [hj]
      · rw [runCycle_cons_eof i a rest st hc hs]
        intro j hj
        rcases List.mem_cons.mp hj with h | h
        · simp [h]
        · exact List.mem_cons_of_mem _ (ih _ j h)

end SelectorKernel

namespace SelectorKernel

theorem runLoop_succ (ps : List (Nat × Alg)) (fuel : Nat) (st : PState) :
    runLoop ps (fuel + 1) st =
      if (runCycle ps st).state.running = ∅ then
        some ⟨1, (runCycle ps st).state, [(runCycle ps st).trace]⟩
      else
        match runLoop ps fuel (runCycle ps st).state with
        | none => none
        | some l => some ⟨l.cycles + 1, l.state, (runCycle ps st).trace :: l.traces⟩ := rfl

/-- Claim C1 counterexample. -/
theorem c1_counterexample :
    readersOf (pairsOf [cAlg]) = ∅ ∧
    (processLoop [cAlg] 1).map LoopRes.traces = some [[0]] ∧
    (processLoop [cAlg] 1).map LoopRes.cycles = some 1 := by
  refine ⟨by decide, by decide, by decide⟩

/-- Claim C1 amended. -/
theorem c1_zero_readers_one_cycle (algs : List Alg) (fuel : Nat)
    (h : readersOf (pairsOf algs) = ∅) (hf : 1 ≤ fuel) :
    processLoop algs fuel =
      some ⟨1, (runCycle (pairsOf algs) (initState algs)).state,
            [(runCycle (pairsOf algs) (initState algs)).trace]⟩ := by
  obtain ⟨f, rfl⟩ : ∃ f, fuel = f + 1 := ⟨fuel - 1, by omega⟩
  have hrun : (runCycle (pairsOf algs) (initState algs)).state.running = ∅ := by
    have hsub := runCycle_running_subset (pairsOf algs) (initState algs)
    have h0 : (initState algs).running = ∅ := h
    rw [h0] at hsub
    exact Finset.subset_empty.mp hsub
  show runLoop (pairsOf algs) (f + 1) (initState algs) = _
  rw [runLoop_succ, if_pos hrun]

/-- Claim C1 witness. -/
theorem c1_witness :
    processLoop [cAlg] 3 =
      some ⟨1, (runCycle (pairsOf [cAlg]) (initState [cAlg])).state,
            [(runCycle (pairsOf [cAlg]) (initState [cAlg])).trace]⟩ :=
  c1_zero_readers_one_cycle [cAlg] 3 (by decide) (by decide)

/-- Claim C3. -/
theorem c3_skip_aborts_cycle (xs ys : List (Nat × Alg)) (i : Nat) (a : Alg) (st : PState)
    (hpre : (runCycle xs st).aborted = false)
    (hinv : ¬(a.isReader = true ∧ i ∉ (runCycle xs st).state.running))
    (hskip : a.execute ((runCycle xs st).state.counts i) = Status.SkipToNext) :
    (runCycle (xs ++ (i, a) :: ys) st).trace = (runCycle xs st).trace ++ [i] ∧
    (runCycle (xs ++ (i, a) :: ys) st).aborted = true ∧
    (runCycle (xs ++ (i, a) :: ys) st).state.running = (runCycle xs st).state.running ∧
    (∀ j ∈ (runCycle (xs ++ (i, a) :: ys) st).trace, j ∈ xs.map Prod.fst ∨ j = i) := by
  rw [runCycle_append, hpre]
  rw [runCycle_cons_stn i a ys (runCycle xs st).state hinv hskip]
  simp only [Bool.false_eq_true, if_false]
  refine ⟨trivial, trivial, trivial, ?_⟩
  intro j hj
  simp only [List.mem_append, List.mem_singleton] at hj
  rcases hj with h | h
  · exact Or.inl (runCycle_trace_mem xs st j h)
  · exact Or.inr h

/-- Claim C3 witness. -/
theorem c3_witness :
    (runCycle [(0, cAlg), (1, sAlg), (2, cAlg)] pst0).trace = [0, 1] ∧
    (runCycle [(0, cAlg), (1, sAlg), (2, cAlg)] pst0).aborted = true ∧
    (runCycle [(0, cAlg), (1, sAlg), (2, cAlg)] pst0).state.running = ∅ := by
  have h := c3_skip_aborts_cycle [(0, cAlg)] [(2, cAlg)] 1 sAlg pst0
    (by decide) (by decide) (by decide)
  exact ⟨h.1.trans (by decide), h.2.1, h.2.2.1.trans (by decide)⟩

/-- Claim C4. -/
theorem c4_eof_removes_reader (xs ys : List (Nat × Alg)) (i : Nat) (a : Alg) (st : PState)
    (hpre : (runCycle xs st).aborted = false)
    (hrd : a.isReader = true)
    (hmem : i ∈ (runCycle xs st).state.running)
    (heof : a.execute ((runCycle xs st).state.counts i) = Status.EndOfFile) :
    (runCycle (xs ++ (i, a) :: ys) st).trace =
      (runCycle xs st).trace ++ i :: (runCycle ys (afterEOF (runCycle xs st).state i)).trace ∧
    (runCycle (xs ++ (i, a) :: ys) st).aborted =
      (runCycle ys (afterEOF (runCycle xs st).state i)).aborted ∧
    (runCycle (xs ++ (i, a) :: ys) st).state.running =
      (runCycle ys (afterEOF (runCycle xs st).state i)).state.running ∧
    i ∉ (afterEOF (runCycle xs st).state i).running ∧
    (∀ j ∈ (runCycle xs st).state.running, j ≠ i →
      j ∈ (afterEOF (runCycle xs st).state i).running) := by
  have hinv : ¬(a.isReader = true ∧ i ∉ (runCycle xs st).state.running) := by
    intro hcon
    exact hcon.2 hmem
  rw [runCycle_append, hpre]
  rw [runCycle_cons_eof i a ys (runCycle xs st).state hinv heof]
  simp only [Bool.false_eq_true, if_false]
  refine ⟨trivial, trivial, trivial, ?_, ?_⟩
  · simp [afterEOF]
  · intro j hj hne
    simp [afterEOF, Finset.mem_erase, hne, hj]

/-- Claim C4 witness. -/
theorem c4_witness :
    (runCycle [(0, cAlg), (1, eAlg), (2, cAlg)] ⟨fun _ => 0, {1}⟩).trace = [0, 1, 2] ∧
    (runCycle [(0, cAlg), (1, eAlg), (2, cAlg)] ⟨fun _ => 0, {1}⟩).aborted = false ∧
    (runCycle [(0, cAlg), (1, eAlg), (2, cAlg)] ⟨fun _ => 0, {1}⟩).state.running = ∅ ∧
    (1 : Nat) ∉ (afterEOF (runCycle [(0, cAlg)] ⟨fun _ => 0, {1}⟩).state 1).running := by
  have h := c4_eof_removes_reader [(0, cAlg)] [(2, cAlg)] 1 eAlg ⟨fun _ => 0, {1}⟩
    (by decide) (by decide) (by decide) (by decide)
  exact ⟨h.1.trans (by decide), h.2.1.trans (by decide), h.2.2.1.trans (by decide), h.2.2.2.1⟩

end SelectorKernel

namespace SelectorKernel

theorem getThing_nil (tyName : String) (castT : Comp → Bool)
    (pred : Option (Comp → Except KErr Bool)) :
    getThing tyName castT pred [] = Except.error (KErr.notFound tyName) := rfl

theorem getThing_cons_nomatch (tyName : String) (castT : Comp → Bool)
    (pred : Option (Comp → Except KErr Bool)) (c : Comp) (rest : List Comp)
    (hc : castT c = false) :
    getThing tyName castT pred (c :: rest) = getThing tyName castT pred rest := by
  simp only [getThing, hc]
  simp

theorem getThing_cons_match_nopred (tyName : String) (castT : Comp → Bool)
    (c : Comp) (rest : List Comp) (hc : castT c = true) :
    getThing tyName castT none (c :: rest) = Except.ok c := by
  simp only [getThing, hc]
  simp

theorem getThing_cons_match_prederr (tyName : String) (castT : Comp → Bool)
    (p : Comp → Except KErr Bool) (c : Comp) (rest : List Comp) (e : KErr)
    (hc : castT c = true) (hp : p c = Except.error e) :
    getThing tyName castT (some p) (c :: rest) = Except.error e := by
  simp only [getThing, hc, hp]
  simp

theorem getThing_cons_match_predok (tyName : String) (castT : Comp → Bool)
    (p : Comp → Except KErr Bool) (c : Comp) (rest : List Comp) (b : Bool)
    (hc : castT c = true) (hp : p c = Except.ok b) :
    getThing tyName castT (some p) (c :: rest) =
      if b then Except.ok c else getThing tyName castT (some p) rest := by
  simp only [getThing, hc, hp]
  simp

theorem getThing_purePred_notFound (tyName : String) (castT : Comp → Bool)
    (p : Comp → Bool) :
    ∀ vec : List Comp, (∀ c ∈ vec, ¬(castT c = true ∧ p c = true)) →
      getThing tyName castT (some (fun c => Except.ok (p c))) vec =
        Except.error (KErr.notFound tyName) := by
  intro vec
  induction vec with
  | nil => intro _; rfl
  | cons c rest ih =>
    intro h
    have hc := h c (List.mem_cons_self c rest)
    by_cases hcast : castT c = true
    · have hp : p c = false := by
        rcases Bool.eq_false_or_eq_true (p c) with h1 | h1
        · exact absurd ⟨hcast, h1⟩ hc
        · exact h1
      rw [getThing_cons_match_predok tyName castT _ c rest (p c) hcast rfl, hp]
      simp only [Bool.false_eq_true, if_false]
      exact ih (fun c' hc' => h c' (List.mem_cons_of_mem _ hc'))
    · rw [getThing_cons_nomatch tyName castT _ c rest (Bool.eq_false_iff.mpr hcast)]
      exact ih (fun c' hc' => h c' (List.mem_cons_of_mem _ hc'))

theorem getThing_nopred_notFound (tyName : String) (castT : Comp → Bool) :
    ∀ vec : List Comp, (∀ c ∈ vec, castT c = false) →
      getThing tyName castT none vec = Except.error (KErr.notFound tyName) := by
  intro vec
  induction vec with
  | nil => intro _; rfl
  | cons c rest ih =>
    intro h
    rw [getThing_cons_nomatch tyName castT none c rest (h c (List.mem_cons_self c rest))]
    exact ih (fun c' hc' => h c' (List.mem_cons_of_mem _ hc'))

theorem getThingByTag_notImplemented (tyName : String) (castT : Comp → Bool) (tag : Int) :
    ∀ vec : List Comp, (∃ c ∈ vec, castT c = true) →
      (∀ c ∈ vec, castT c = true → c.tag = none) →
      getThingByTag tyName castT tag vec = Except.error KErr.notImplemented := by
  intro vec
  induction vec with
  | nil => rintro ⟨c, hc, _⟩ _; exact absurd hc (List.not_mem_nil c)
  | cons c rest ih =>
    rintro ⟨c0, hc0, hcast0⟩ hall
    by_cases hcast : castT c = true
    · have htag : c.tag = none := hall c (List.mem_cons_self c rest) hcast
      have hp : tagPred tag c = Except.error KErr.notImplemented := by
        simp [tagPred, getTag, htag]
      exact getThing_cons_match_prederr tyName castT _ c rest _ hcast hp
    · rw [show getThingByTag tyName castT tag (c :: rest)
            = getThing tyName castT (some (tagPred tag)) (c :: rest) from rfl,
          getThing_cons_nomatch tyName castT _ c rest (Bool.eq_false_iff.mpr hcast)]
      have hc0r : c0 ∈ rest := by
        rcases List.mem_cons.mp hc0 with h1 | h1
        · subst h1; exact absurd hcast0 hcast
        · exact h1
      exact ih ⟨c0, hc0r, hcast0⟩ (fun c' hc' => hall c' (List.mem_cons_of_mem _ hc'))

/-- Claim C5. -/
theorem c5_lookup_errors (tyName : String) (vec : List Comp) (castT : Comp → Bool)
    (p : Comp → Bool) (tag : Int) :
    ((∀ c ∈ vec, castT c = false) →
      getAlg tyName castT none vec = Except.error (KErr.notFound tyName) ∧
      getTool tyName castT none vec = Except.error (KErr.notFound tyName)) ∧
    ((∀ c ∈ vec, ¬(castT c = true ∧ p c = true)) →
      getAlg tyName castT (some (fun c => Except.ok (p c))) vec =
        Except.error (KErr.notFound tyName)) ∧
    ((∃ c ∈ vec, castT c = true) → (∀ c ∈ vec, castT c = true → c.tag = none) →
      getThingByTag tyName castT tag vec = Except.error KErr.notImplemented) ∧
    KErr.notImplemented ≠ KErr.notFound tyName := by
  refine ⟨?_, ?_, ?_, ?_⟩
  · intro h
    exact ⟨getThing_nopred_notFound tyName castT vec h,
           getThing_nopred_notFound tyName castT vec h⟩
  · intro h
    exact getThing_purePred_notFound tyName castT p vec h
  · intro h1 h2
    exact getThingByTag_notImplemented tyName castT tag vec h1 h2
  · intro h
    exact KErr.noConfusion h

/-- Claim C5 witness. -/
theorem c5_witness :
    getAlg ("MyAlg") (fun _ => true) (some (fun c => Except.ok false)) [⟨none⟩] =
      Except.error (KErr.notFound ("MyAlg")) ∧
    getTool ("MyTool") (fun _ => false) none [⟨some 4⟩] =
      Except.error (KErr.notFound ("MyTool")) ∧
    getThingByTag ("MyAlg") (fun _ => true) 7 [⟨none⟩] =
      Except.error KErr.notImplemented ∧
    KErr.notImplemented ≠ KErr.notFound ("MyAlg") := by
  have h1 := c5_lookup_errors ("MyAlg") [⟨none⟩] (fun _ => true) (fun _ => false) 7
  have h2 := c5_lookup_errors ("MyTool") [⟨some 4⟩] (fun _ => false) (fun _ => false) 7
  exact ⟨h1.2.1 (by decide), (h2.1 (by decide)).2,
         h1.2.2.1 ⟨⟨none⟩, by decide⟩ (by decide), h1.2.2.2⟩

end SelectorKernel

namespace SelectorKernel

theorem lookupKey_insertKey_self (k : String) (v : Option OutFile) :
    ∀ m : OutMap, lookupKey k (insertKey m k v) = some v := by
  intro m
  induction m with
  | nil => simp [insertKey, lookupKey]
  | cons p rest ih =>
    obtain ⟨k1, v1⟩ := p
    by_cases h : k1 = k
    · simp [insertKey, h, lookupKey]
    · simp [insertKey, h, lookupKey, ih]

theorem lookupKey_eraseKey_self (k : String) :
    ∀ m : OutMap, lookupKey k (eraseKey m k) = none := by
  intro m
  induction m with
  | nil => simp [eraseKey, lookupKey]
  | cons p rest ih =>
    obtain ⟨k1, v1⟩ := p
    by_cases h : k1 = k
    · simp [eraseKey, h, ih]
    · simp [eraseKey, h, lookupKey, ih]

/-- Claim C6. -/
theorem c6_makeOutFile_conflict_reopen (m : OutMap) (path name : String)
    (f0 : Option OutFile) (hb : lookupKey name m = some f0) :
    makeOutFile m path name false = (m, Except.error (KErr.alreadyOpened name)) ∧
    makeOutFile m path name true =
      (insertKey (eraseKey m name) name (some ⟨path, ("RECREATE")⟩),
       Except.ok ⟨path, ("RECREATE")⟩) ∧
    lookupKey name (eraseKey m name) = none ∧
    lookupKey name (makeOutFile m path name true).1 =
      some (some ⟨path, ("RECREATE")⟩) := by
  have h1 : makeOutFile m path name false = (m, Except.error (KErr.alreadyOpened name)) := by
    rw [makeOutFile.eq_def, hb]
    simp
  have h2 : makeOutFile m path name true =
      (insertKey (eraseKey m name) name (some ⟨path, ("RECREATE")⟩),
       Except.ok ⟨path, ("RECREATE")⟩) := by
    rw [makeOutFile.eq_def, hb]
    simp
  refine ⟨h1, h2, lookupKey_eraseKey_self name m, ?_⟩
  rw [h2]
  exact lookupKey_insertKey_self name _ (eraseKey m name)

/-- Claim C6 witness. -/
theorem c6_witness :
    makeOutFile [(("histos"), some ⟨("old.root"), ("RECREATE")⟩)] ("new.root") ("histos") false =
      ([(("histos"), some ⟨("old.root"), ("RECREATE")⟩)],
       Except.error (KErr.alreadyOpened ("histos"))) ∧
    makeOutFile [(("histos"), some ⟨("old.root"), ("RECREATE")⟩)] ("new.root") ("histos") true =
      ([(("histos"), some ⟨("new.root"), ("RECREATE")⟩)],
       Except.ok ⟨("new.root"), ("RECREATE")⟩) := by
  have h := c6_makeOutFile_conflict_reopen
    [(("histos"), some ⟨("old.root"), ("RECREATE")⟩)] ("new.root") ("histos")
    (some ⟨("old.root"), ("RECREATE")⟩) (by decide)
  exact ⟨h.1, h.2.1.trans (by decide)⟩

/-- Claim C7. -/
theorem c7_getOutFile_lazy (m : OutMap) (name : String) :
    (∀ v, lookupKey name m = some v → getOutFile m name = (m, v)) ∧
    (lookupKey name m = none →
      getOutFile m name = (insertKey m name none, none) ∧
      lookupKey name (getOutFile m name).1 = some none) := by
  constructor
  · intro v hv
    rw [getOutFile.eq_def, hv]
  · intro hn
    have h1 : getOutFile m name = (insertKey m name none, none) := by
      rw [getOutFile.eq_def, hn]
    refine ⟨h1, ?_⟩
    rw [h1]
    exact lookupKey_insertKey_self name none m
/-- Claim C7 witness. -/
theorem c7_witness :
    getOutFile [(("a"), some ⟨("a.root"), ("RECREATE")⟩)] ("a") =
      ([(("a"), some ⟨("a.root"), ("RECREATE")⟩)], some ⟨("a.root"), ("RECREATE")⟩) ∧
    getOutFile [(("a"), some ⟨("a.root"), ("RECREATE")⟩)] ("b") =
      ([(("a"), some ⟨("a.root"), ("RECREATE")⟩), (("b"), none)], none) ∧
    lookupKey ("b") (getOutFile [(("a"), some ⟨("a.root"), ("RECREATE")⟩)] ("b")).1 =
      some none := by
  have h1 := c7_getOutFile_lazy [(("a"), some ⟨("a.root"), ("RECREATE")⟩)] ("a")
  have h2 := c7_getOutFile_lazy [(("a"), some ⟨("a.root"), ("RECREATE")⟩)] ("b")
  refine ⟨h1.1 (some ⟨("a.root"), ("RECREATE")⟩) (by decide), ?_, (h2.2 (by decide)).2⟩
  exact ((h2.2 (by decide)).1).trans (by decide)

/-- Claim C10. -/
theorem c10_lazy_entry_blocks_makeOutFile (m : OutMap) (name path : String)
    (h : lookupKey name m = none) :
    (getOutFile m name).2 = none ∧
    lookupKey name (getOutFile m name).1 = some none ∧
    makeOutFile (getOutFile m name).1 path name false =
      ((getOutFile m name).1, Except.error (KErr.alreadyOpened name)) := by
  have h1 : getOutFile m name = (insertKey m name none, none) := by
    rw [getOutFile.eq_def, h]
  have h2 : lookupKey name (getOutFile m name).1 = some none := by
    rw [h1]
    exact lookupKey_insertKey_self name none m
  refine ⟨by rw [h1], h2, ?_⟩
  rw [makeOutFile.eq_def, h2]
  simp

/-- Claim C10 witness. -/
theorem c10_witness :
    (getOutFile [] ("never-bound")).2 = none ∧
    lookupKey ("never-bound") (getOutFile [] ("never-bound")).1 = some none ∧
    makeOutFile (getOutFile [] ("never-bound")).1 ("f.root") ("never-bound") false =
      ((getOutFile [] ("never-bound")).1,
       Except.error (KErr.alreadyOpened ("never-bound"))) :=
  c10_lazy_entry_blocks_makeOutFile [] ("never-bound") ("f.root") (by decide)

end SelectorKernel

namespace SelectorKernel

/-- Claim C8 counterexample. -/
theorem c8_counterexample :
    simpleConnect ("ReaderT") [] (fun _ => true) =
      Except.error (KErr.notFound ("ReaderT")) := by
  decide

theorem getThing_nopred_eq_find (tyName : String) (castR : Comp → Bool) :
    ∀ vec : List Comp,
      getThing tyName castR none vec =
        match vec.find? castR with
        | some c => Except.ok c
        | none => Except.error (KErr.notFound tyName) := by
  intro vec
  induction vec with
  | nil => rfl
  | cons c rest ih =>
    by_cases hc : castR c = true
    · rw [getThing_cons_match_nopred tyName castR c rest hc, List.find?_cons_of_pos rest hc]
    · rw [getThing_cons_nomatch tyName castR none c rest (Bool.eq_false_iff.mpr hc),
        List.find?_cons_of_neg rest hc, ih]

/-- Claim C8 amended. -/
theorem c8_simple_alg {D : Type} (tyName : String) (vec : List Comp)
    (castR : Comp → Bool) (r : MockReader D) (consume : D → Status) :
    (∀ c, vec.find? castR = some c → simpleConnect tyName vec castR = Except.ok c) ∧
    (vec.find? castR = none →
      simpleConnect tyName vec castR = Except.error (KErr.notFound tyName)) ∧
    (r.ready = true → simpleExecute r consume = consume r.data) ∧
    (r.ready = false → simpleExecute r consume = Status.Continue ∧
      ∀ g : D → Status, simpleExecute r g = Status.Continue) := by
  refine ⟨?_, ?_, ?_, ?_⟩
  · intro c hc
    rw [show simpleConnect tyName vec castR = getThing tyName castR none vec from rfl,
      getThing_nopred_eq_find tyName castR vec, hc]
  · intro hn
    rw [show simpleConnect tyName vec castR = getThing tyName castR none vec from rfl,
      getThing_nopred_eq_find tyName castR vec, hn]
  · intro hr
    simp [simpleExecute, hr]
  · intro hr
    constructor
    · simp [simpleExecute, hr]
    · intro g
      simp [simpleExecute, hr]

/-- Claim C8 witness. -/
theorem c8_witness :
    simpleConnect ("ReaderT") [⟨some 1⟩, ⟨some 2⟩] (fun c => c.tag == some 2) =
      Except.ok ⟨some 2⟩ ∧
    simpleExecute ⟨true, (5 : Nat)⟩ (fun _ => Status.EndOfFile) = Status.EndOfFile ∧
    simpleExecute ⟨false, (5 : Nat)⟩ (fun _ => Status.EndOfFile) = Status.Continue := by
  have h1 := c8_simple_alg ("ReaderT") [⟨some 1⟩, ⟨some 2⟩] (fun c => c.tag == some 2)
    (⟨true, (5 : Nat)⟩ : MockReader Nat) (fun _ => Status.EndOfFile)
  have h2 := c8_simple_alg ("ReaderT") [⟨some 1⟩, ⟨some 2⟩] (fun c => c.tag == some 2)
    (⟨false, (5 : Nat)⟩ : MockReader Nat) (fun _ => Status.EndOfFile)
  exact ⟨h1.1 ⟨some 2⟩ (by decide), h1.2.2.1 (by decide), (h2.2.2.2 (by decide)).1⟩

/-- Claim C9 counterexample. -/
theorem c9_counterexample :
    (makeAlgNode []).getLast? = some mkNode ∧
    mkNode.pipe = none ∧ mkNode.assignments = 0 := by
  decide

/-- Claim C9 amended. -/
theorem c9_backref_connect_phase (vec : List NodeSt) (pid : Nat)
    (hfresh : ∀ n ∈ vec, n = mkNode) :
    ((makeAlgNode vec).getLast? = some mkNode ∧
      mkNode.pipe = none ∧ mkNode.assignments = 0) ∧
    (∀ n ∈ connectPhase pid (makeAlgNode vec),
      n.pipe = some pid ∧ n.assignments = 1) := by
  refine ⟨⟨?_, rfl, rfl⟩, ?_⟩
  · rw [show makeAlgNode vec = vec ++ [mkNode] from rfl]
    simp
  · intro n hn
    rcases List.mem_map.mp hn with ⟨m, hm, rfl⟩
    rcases List.mem_append.mp hm with h | h
    · rw [hfresh m h]
      exact ⟨rfl, rfl⟩
    · rcases List.mem_singleton.mp h with rfl
      exact ⟨rfl, rfl⟩

/-- Claim C9 witness. -/
theorem c9_witness :
    ((makeAlgNode [mkNode]).getLast? = some mkNode ∧
      mkNode.pipe = none ∧ mkNode.assignments = 0) ∧
    (∀ n ∈ connectPhase 3 (makeAlgNode [mkNode]),
      n.pipe = some 3 ∧ n.assignments = 1) :=
  c9_backref_connect_phase [mkNode] 3 (by simp)

end SelectorKernel

namespace SelectorKernel

theorem withIdx_fst_ge : ∀ (l : List Alg) (n : Nat), ∀ p ∈ withIdx n l, n ≤ p.1 := by
  intro l
  induction l with
  | nil => intro n p hp; exact absurd hp (List.not_mem_nil _)
  | cons a rest ih =>
    intro n p hp
    rcases List.mem_cons.mp hp with h | h
    · rw [h]
    · have := ih (n + 1) p h
      omega

theorem withIdx_fst_nodup : ∀ (l : List Alg) (n : Nat),
    ((withIdx n l).map Prod.fst).Nodup := by
  intro l
  induction l with
  | nil => intro n; simp [withIdx]
  | cons a rest ih =>
    intro n
    rw [withIdx]
    simp only [List.map_cons, List.nodup_cons]
    refine ⟨?_, ih (n + 1)⟩
    intro hmem
    rcases List.mem_map.mp hmem with ⟨p, hp, hfst⟩
    have := withIdx_fst_ge rest (n + 1) p hp
    omega

theorem nodup_fst_inj : ∀ (ps : List (Nat × Alg)), (ps.map Prod.fst).Nodup →
    ∀ i a b, (i, a) ∈ ps → (i, b) ∈ ps → a = b := by
  intro ps
  induction ps with
  | nil => intro _ i a b ha _; exact absurd ha (List.not_mem_nil _)
  | cons q rest ih =>
    intro hnd i a b ha hb
    have hndi : q.1 ∉ rest.map Prod.fst := by
      simp only [List.map_cons, List.nodup_cons] at hnd
      exact hnd.1
    have hndr : (rest.map Prod.fst).Nodup := by
      simp only [List.map_cons, List.nodup_cons] at hnd
      exact hnd.2
    rcases List.mem_cons.mp ha with h1 | h1 <;> rcases List.mem_cons.mp hb with h2 | h2
    · rw [← h1] at h2
      injection h2 with h2a h2b
      exact h2b.symm
    · exfalso
      apply hndi
      rw [← h1]
      exact List.mem_map.mpr ⟨(i, b), h2, rfl⟩
    · exfalso
      apply hndi
      rw [← h2]
      exact List.mem_map.mpr ⟨(i, a), h1, rfl⟩
    · exact ih hndr i a b h1 h2

/-- Effect of one non-aborted pass on counters and `runningReaders`,
when no algorithm ever returns `SkipToNext`: positions outside the list
are untouched; a skipped reader is untouched; an executed algorithm's
counter advances by one and it survives in `runningReaders` iff it was
there and did not return `EndOfFile`. -/
theorem runCycle_noskip_spec :
    ∀ (ps : List (Nat × Alg)) (st : PState),
      (ps.map Prod.fst).Nodup →
      (∀ p ∈ ps, ∀ n, (p.2).execute n ≠ Status.SkipToNext) →
      (runCycle ps st).aborted = false ∧
      (∀ j, j ∉ ps.map Prod.fst →
        (runCycle ps st).state.counts j = st.counts j ∧
        (j ∈ (runCycle ps st).state.running ↔ j ∈ st.running)) ∧
      (∀ p ∈ ps,
        ((p.2.isReader = true ∧ p.1 ∉ st.running) →
          (runCycle ps st).state.counts p.1 = st.counts p.1 ∧
          (p.1 ∈ (runCycle ps st).state.running ↔ p.1 ∈ st.running)) ∧
        (¬(p.2.isReader = true ∧ p.1 ∉ st.running) →
          (runCycle ps st).state.counts p.1 = st.counts p.1 + 1 ∧
          (p.1 ∈ (runCycle ps st).state.running ↔
            (p.1 ∈ st.running ∧ p.2.execute (st.counts p.1) ≠ Status.EndOfFile)))) := by
  intro ps
  induction ps with
  | nil =>
    intro st _ _
    refine ⟨rfl, ?_, ?_⟩
    · intro j _
      exact ⟨rfl, Iff.rfl⟩
    · intro p hp
      exact absurd hp (List.not_mem_nil _)
  | cons q rest ih =>
    intro st hnd hns
    obtain ⟨i, a⟩ := q
    have hndi : i ∉ rest.map Prod.fst := by
      simp only [List.map_cons, List.nodup_cons] at hnd
      exact hnd.1
    have hndr : (rest.map Prod.fst).Nodup := by
      simp only [List.map_cons, List.nodup_cons] at hnd
      exact hnd.2
    have hnsr : ∀ p ∈ rest, ∀ n, (p.2).execute n ≠ Status.SkipToNext :=
      fun p hp => hns p (List.mem_cons_of_mem _ hp)
    by_cases hc : a.isReader = true ∧ i ∉ st.running
    · -- the reader is skipped: state evolves as for `rest` alone
      rw [runCycle_cons_skip i a rest st hc]
      obtain ⟨ihab, ihout, ihin⟩ := ih st hndr hnsr
      refine ⟨ihab, ?_, ?_⟩
      · intro j hj
        exact ihout j (fun h => hj (List.mem_cons_of_mem _ h))
      · intro p hp
        rcases List.mem_cons.mp hp with rfl | h
        · exact ⟨fun _ => ihout i hndi, fun hcon => absurd hc hcon⟩
        · exact ihin p h
    · rcases hst : a.execute (st.counts i) with _ | _ | _
      · -- Continue: counter bumps, running unchanged, pass continues
        rw [runCycle_cons_continue i a rest st hc hst]
        obtain ⟨ihab, ihout, ihin⟩ :=
          ih ⟨Function.update st.counts i (st.counts i + 1), st.running⟩ hndr hnsr
        refine ⟨ihab, ?_, ?_⟩
        · intro j hj
          have hjne : j ≠ i := fun he => hj (by rw [he]; exact List.mem_cons_self _ _)
          have hjr : j ∉ rest.map Prod.fst := fun h => hj (List.mem_cons_of_mem _ h)
          refine ⟨(ihout j hjr).1.trans (Function.update_noteq hjne _ _), (ihout j hjr).2⟩
        · intro p hp
          rcases List.mem_cons.mp hp with rfl | h
          · refine ⟨fun hcon => absurd hcon hc, fun _ => ?_⟩
            refine ⟨(ihout i hndi).1.trans (by simp [afterEOF]), ?_⟩
            rw [hst]
            constructor
            · intro hm
              exact ⟨(ihout i hndi).2.mp hm, by decide⟩
            · intro hm
              exact (ihout i hndi).2.mpr hm.1
          · have hpne : p.1 ≠ i := by
              intro he
              exact hndi (he ▸ List.mem_map.mpr ⟨p, h, rfl⟩)
            have hcnt : Function.update st.counts i (st.counts i + 1) p.1 = st.counts p.1 :=
              Function.update_noteq hpne _ _
            obtain ⟨ih1, ih2⟩ := ihin p h
            constructor
            · intro hcond
              obtain ⟨hca, hcb⟩ := ih1 hcond
              exact ⟨hca.trans hcnt, hcb⟩
            · intro hcond
              obtain ⟨hca, hcb⟩ := ih2 hcond
              refine ⟨by simp [hca, hcnt], ?_⟩
              rw [hcb]
              simp [hcnt]
      · -- SkipToNext is excluded by the hypothesis
        exact absurd hst (hns (i, a) (List.mem_cons_self _ _) (st.counts i))
      · -- EndOfFile: counter bumps, the position is erased, pass continues
        rw [runCycle_cons_eof i a rest st hc hst]
        obtain ⟨ihab, ihout, ihin⟩ := ih (afterEOF st i) hndr hnsr
        have herase : ∀ j, j ≠ i → (j ∈ (afterEOF st i).running ↔ j ∈ st.running) := by
          intro j hj
          simp [afterEOF, Finset.mem_erase, hj]
        refine ⟨ihab, ?_, ?_⟩
        · intro j hj
          have hjne : j ≠ i := fun he => hj (by rw [he]; exact List.mem_cons_self _ _)
          have hjr : j ∉ rest.map Prod.fst := fun h => hj (List.mem_cons_of_mem _ h)
          refine ⟨(ihout j hjr).1.trans (Function.update_noteq hjne _ _),
            (ihout j hjr).2.trans (herase j hjne)⟩
        · intro p hp
          rcases List.mem_cons.mp hp with rfl | h
          · refine ⟨fun hcon => absurd hcon hc, fun _ => ?_⟩
            refine ⟨(ihout i hndi).1.trans (by simp [afterEOF]), ?_⟩
            rw [hst]
            constructor
            · intro hm
              have : i ∈ (afterEOF st i).running := (ihout i hndi).2.mp hm
              simp [afterEOF] at this
            · intro hm
              exact absurd rfl hm.2
          · have hpne : p.1 ≠ i := by
              intro he
              exact hndi (he ▸ List.mem_map.mpr ⟨p, h, rfl⟩)
            have hcnt : (afterEOF st i).counts p.1 = st.counts p.1 :=
              Function.update_noteq hpne _ _
            have hmem1 := herase p.1 hpne
            obtain ⟨ih1, ih2⟩ := ihin p h
            constructor
            · intro hcond
              obtain ⟨hca, hcb⟩ := ih1 ⟨hcond.1, fun hm => hcond.2 (hmem1.mp hm)⟩
              exact ⟨hca.trans hcnt, hcb.trans hmem1⟩
            · intro hcond
              have hcond1 : ¬(p.2.isReader = true ∧ p.1 ∉ (afterEOF st i).running) :=
                fun hcon => hcond ⟨hcon.1, fun hm => hcon.2 (hmem1.mpr hm)⟩
              obtain ⟨hca, hcb⟩ := ih2 hcond1
              refine ⟨by rw [hca, hcnt], ?_⟩
              rw [hcb, hcnt]
              constructor
              · intro hm
                exact ⟨hmem1.mp hm.1, hm.2⟩
              · intro hm
                exact ⟨hmem1.mpr hm.1, hm.2⟩

end SelectorKernel

namespace SelectorKernel

theorem mem_readersOf (ps : List (Nat × Alg)) (j : Nat) :
    j ∈ readersOf ps ↔ ∃ p, (p ∈ ps ∧ p.2.isReader = true) ∧ p.1 = j := by
  simp [readersOf, List.mem_filter]

theorem iterCycle_zero (ps : List (Nat × Alg)) (st : PState) :
    iterCycle ps st 0 = st := rfl

theorem iterCycle_succ (ps : List (Nat × Alg)) (st : PState) (c : Nat) :
    iterCycle ps st (c + 1) = (runCycle ps (iterCycle ps st c)).state := rfl

theorem iterCycle_succ_front (ps : List (Nat × Alg)) (st : PState) :
    ∀ c, iterCycle ps st (c + 1) = iterCycle ps (runCycle ps st).state c := by
  intro c
  induction c with
  | zero => rfl
  | succ c ihc =>
    show (runCycle ps (iterCycle ps st (c + 1))).state = _
    rw [ihc]
    rfl

/-- Loop invariant under the C2 hypotheses: after `c` passes a reader at
position `p.1` has been invoked `min c (k p.1)` times and is still in
`runningReaders` iff its stream has not ended, and `runningReaders`
never holds anything but reader positions. -/
theorem iter_inv (algs : List Alg) (k : Nat → Nat)
    (hns : NoSkipP (pairsOf algs))
    (hprof : ∀ p ∈ pairsOf algs, p.2.isReader = true → ReaderProfile p.2 (k p.1)) :
    ∀ c,
      (∀ p ∈ pairsOf algs, p.2.isReader = true →
        (iterCycle (pairsOf algs) (initState algs) c).counts p.1 = min c (k p.1) ∧
        (p.1 ∈ (iterCycle (pairsOf algs) (initState algs) c).running ↔ c < k p.1)) ∧
      (iterCycle (pairsOf algs) (initState algs) c).running ⊆ readersOf (pairsOf algs) := by
  intro c
  induction c with
  | zero =>
    refine ⟨?_, fun j hj => hj⟩
    intro p hp hr
    refine ⟨by simp [iterCycle, initState], ?_⟩
    show p.1 ∈ (initState algs).running ↔ 0 < k p.1
    have h1 : p.1 ∈ readersOf (pairsOf algs) := (mem_readersOf _ _).mpr ⟨p, ⟨hp, hr⟩, rfl⟩
    have h2 : 1 ≤ k p.1 := (hprof p hp hr).1
    exact ⟨fun _ => by omega, fun _ => h1⟩
  | succ c ihc =>
    obtain ⟨ihp, ihsub⟩ := ihc
    obtain ⟨hab, hout, hin⟩ := runCycle_noskip_spec (pairsOf algs)
      (iterCycle (pairsOf algs) (initState algs) c) (withIdx_fst_nodup algs 0) hns
    constructor
    · intro p hp hr
      obtain ⟨hk1, hkc, hke⟩ := hprof p hp hr
      obtain ⟨ha1, ha2⟩ := hin p hp
      obtain ⟨hcnt, hmem⟩ := ihp p hp hr
      by_cases hck : k p.1 ≤ c
      · have hnm : p.1 ∉ (iterCycle (pairsOf algs) (initState algs) c).running := by
          intro hm
          have := hmem.mp hm
          omega
        obtain ⟨hb1, hb2⟩ := ha1 ⟨hr, hnm⟩
        constructor
        · show (runCycle (pairsOf algs) (iterCycle (pairsOf algs) (initState algs) c)).state.counts p.1
            = min (c + 1) (k p.1)
          rw [hb1, hcnt]
          omega
        · show p.1 ∈ (runCycle (pairsOf algs)
              (iterCycle (pairsOf algs) (initState algs) c)).state.running ↔ c + 1 < k p.1
          rw [hb2, hmem]
          omega
      · have hm : p.1 ∈ (iterCycle (pairsOf algs) (initState algs) c).running :=
          hmem.mpr (by omega)
        have hnc : ¬(p.2.isReader = true ∧
            p.1 ∉ (iterCycle (pairsOf algs) (initState algs) c).running) :=
          fun hcon => hcon.2 hm
        obtain ⟨hb1, hb2⟩ := ha2 hnc
        constructor
        · show (runCycle (pairsOf algs) (iterCycle (pairsOf algs) (initState algs) c)).state.counts p.1
            = min (c + 1) (k p.1)
          rw [hb1, hcnt]
          omega
        · show p.1 ∈ (runCycle (pairsOf algs)
              (iterCycle (pairsOf algs) (initState algs) c)).state.running ↔ c + 1 < k p.1
          rw [hb2, hcnt]
          have hcmin : min c (k p.1) = c := by omega
          rw [hcmin]
          by_cases he : c + 1 < k p.1
          · have hco : p.2.execute c = Status.Continue := hkc c (by omega)
            simp [hco, hm, he]
          · have hceq : c = k p.1 - 1 := by omega
            have heo : p.2.execute c = Status.EndOfFile := by
              rw [hceq]
              exact hke
            simp [heo, he]
    · intro j hj
      exact ihsub (runCycle_running_subset (pairsOf algs) _ hj)

/-- After `c` passes `runningReaders` is empty iff every reader's stream
has ended by pass `c`. -/
theorem iter_empty_iff (algs : List Alg) (k : Nat → Nat)
    (hns : NoSkipP (pairsOf algs))
    (hprof : ∀ p ∈ pairsOf algs, p.2.isReader = true → ReaderProfile p.2 (k p.1))
    (c : Nat) :
    (iterCycle (pairsOf algs) (initState algs) c).running = ∅ ↔
      (∀ p ∈ pairsOf algs, p.2.isReader = true → k p.1 ≤ c) := by
  obtain ⟨hp, hsub⟩ := iter_inv algs k hns hprof c
  constructor
  · intro he p hmem hr
    by_contra hlt
    push_neg at hlt
    have hin := (hp p hmem hr).2.mpr hlt
    rw [he] at hin
    exact absurd hin (Finset.not_mem_empty _)
  · intro hall
    apply Finset.eq_empty_of_forall_not_mem
    intro j hj
    have hjr := hsub hj
    rcases (mem_readersOf _ _).mp hjr with ⟨p, ⟨hpm, hpr⟩, hpj⟩
    have hcm := (hp p hpm hpr).2.mp (by rw [hpj]; exact hj)
    have hk := hall p hpm hpr
    omega

end SelectorKernel

namespace SelectorKernel

theorem status_cases (s : Status) :
    s = Status.Continue ∨ s = Status.SkipToNext ∨ s = Status.EndOfFile := by
  cases s
  · exact Or.inl rfl
  · exact Or.inr (Or.inl rfl)
  · exact Or.inr (Or.inr rfl)

/-- The loop stops after exactly `m` passes when the reader set first
becomes empty at pass `m`, given enough fuel. -/
theorem runLoop_stops (ps : List (Nat × Alg)) :
    ∀ (m : Nat) (st : PState), 1 ≤ m →
      (iterCycle ps st m).running = ∅ →
      (∀ c, 1 ≤ c → c < m → (iterCycle ps st c).running ≠ ∅) →
      ∀ fuel, m ≤ fuel →
        ∃ l, runLoop ps fuel st = some l ∧ l.cycles = m ∧ l.state = iterCycle ps st m := by
  intro m
  induction m with
  | zero => intro st h; omega
  | succ m ihm =>
    intro st hm hstop hrun fuel hf
    obtain ⟨f, rfl⟩ : ∃ f, fuel = f + 1 := ⟨fuel - 1, by omega⟩
    rw [runLoop_succ]
    cases Nat.eq_zero_or_pos m with
    | inl hm0 =>
      subst hm0
      have h1 : (runCycle ps st).state.running = ∅ := hstop
      rw [if_pos h1]
      exact ⟨⟨1, (runCycle ps st).state, [(runCycle ps st).trace]⟩, rfl, rfl, rfl⟩
    | inr hm1 =>
      have hne : (runCycle ps st).state.running ≠ ∅ := hrun 1 (by omega) (by omega)
      rw [if_neg hne]
      have hstop' : (iterCycle ps (runCycle ps st).state m).running = ∅ := by
        rw [← iterCycle_succ_front]
        exact hstop
      have hrun' : ∀ c, 1 ≤ c → c < m →
          (iterCycle ps (runCycle ps st).state c).running ≠ ∅ := by
        intro c h1 h2
        rw [← iterCycle_succ_front]
        exact hrun (c + 1) (by omega) (by omega)
      obtain ⟨l, hl, hlc, hls⟩ := ihm (runCycle ps st).state hm1 hstop' hrun' f (by omega)
      rw [hl]
      refine ⟨⟨l.cycles + 1, l.state, (runCycle ps st).trace :: l.traces⟩, rfl,
        by rw [hlc], ?_⟩
      show l.state = iterCycle ps st (m + 1)
      rw [iterCycle_succ_front, hls]

/-- The loop runs forever when the reader set never empties. -/
theorem runLoop_never (ps : List (Nat × Alg)) :
    ∀ (fuel : Nat) (st : PState),
      (∀ c, 1 ≤ c → (iterCycle ps st c).running ≠ ∅) →
      runLoop ps fuel st = none := by
  intro fuel
  induction fuel with
  | zero => intro st _; rfl
  | succ f ihf =>
    intro st h
    rw [runLoop_succ]
    have h1 : (runCycle ps st).state.running ≠ ∅ := h 1 (by omega)
    rw [if_neg h1]
    have h2 : ∀ c, 1 ≤ c → (iterCycle ps (runCycle ps st).state c).running ≠ ∅ := by
      intro c hc
      rw [← iterCycle_succ_front]
      exact h (c + 1) (by omega)
    rw [ihf (runCycle ps st).state h2]

/-- Whenever the loop reports a stop, the reported pass count is the
first (and only) stopping point and the final state matches it. -/
theorem runLoop_some_spec (ps : List (Nat × Alg)) :
    ∀ (fuel : Nat) (st : PState) (l : LoopRes), runLoop ps fuel st = some l →
      1 ≤ l.cycles ∧ l.state = iterCycle ps st l.cycles ∧ l.state.running = ∅ := by
  intro fuel
  induction fuel with
  | zero =>
    intro st l h
    exact absurd h (by simp [runLoop])
  | succ f ihf =>
    intro st l h
    rw [runLoop_succ] at h
    by_cases he : (runCycle ps st).state.running = ∅
    · rw [if_pos he] at h
      obtain rfl := Option.some.inj h
      exact ⟨Nat.le_refl 1, rfl, he⟩
    · rw [if_neg he] at h
      cases hrl : runLoop ps f (runCycle ps st).state with
      | none =>
        rw [hrl] at h
        exact absurd h (by simp)
      | some l0 =>
        rw [hrl] at h
        obtain rfl := Option.some.inj h
        obtain ⟨h1, h2, h3⟩ := ihf _ l0 hrl
        refine ⟨Nat.succ_le_succ (Nat.zero_le l0.cycles), ?_, h3⟩
        show l0.state = iterCycle ps st (l0.cycles + 1)
        rw [iterCycle_succ_front]
        exact h2

/-- A position whose algorithm never reports `EndOfFile` is never
erased from `runningReaders` by a pass. -/
theorem runCycle_mem_of_no_eof :
    ∀ (ps : List (Nat × Alg)) (st : PState) (i : Nat),
      (∀ p ∈ ps, p.1 = i → ∀ n, (p.2).execute n ≠ Status.EndOfFile) →
      i ∈ st.running → i ∈ (runCycle ps st).state.running := by
  intro ps
  induction ps with
  | nil => intro st i _ hi; exact hi
  | cons q rest ih =>
    intro st i h hi
    obtain ⟨j, b⟩ := q
    have hrest : ∀ p ∈ rest, p.1 = i → ∀ n, (p.2).execute n ≠ Status.EndOfFile :=
      fun p hp => h p (List.mem_cons_of_mem _ hp)
    by_cases hc : b.isReader = true ∧ j ∉ st.running
    · rw [runCycle_cons_skip j b rest st hc]
      exact ih st i hrest hi
    · rcases hst : b.execute (st.counts j) with _ | _ | _
      · rw [runCycle_cons_continue j b rest st hc hst]
        exact ih _ i hrest hi
      · rw [runCycle_cons_stn j b rest st hc hst]
        exact hi
      · rw [runCycle_cons_eof j b rest st hc hst]
        apply ih _ i hrest
        have hji : j ≠ i := by
          intro he
          exact h (j, b) (List.mem_cons_self _ _) he (st.counts j) hst
        show i ∈ (afterEOF st j).running
        simp only [afterEOF, Finset.mem_erase]
        exact ⟨fun he => hji he.symm, hi⟩

theorem iter_mem_of_no_eof (ps : List (Nat × Alg)) (st : PState) (i : Nat)
    (h : ∀ p ∈ ps, p.1 = i → ∀ n, (p.2).execute n ≠ Status.EndOfFile)
    (hi : i ∈ st.running) : ∀ c, i ∈ (iterCycle ps st c).running := by
  intro c
  induction c with
  | zero => exact hi
  | succ c ihc => exact runCycle_mem_of_no_eof ps _ i h ihc

/-- Under the C2 profile hypotheses the loop stops after exactly
`max(k_i)` passes, for any sufficient fuel. -/
theorem loop_stops_at_sup (algs : List Alg) (k : Nat → Nat)
    (hns : NoSkipP (pairsOf algs))
    (hprof : ∀ p ∈ pairsOf algs, p.2.isReader = true → ReaderProfile p.2 (k p.1))
    (hne : ∃ p ∈ pairsOf algs, p.2.isReader = true) :
    ∀ fuel, (readersOf (pairsOf algs)).sup k ≤ fuel →
      ∃ l, processLoop algs fuel = some l ∧
        l.cycles = (readersOf (pairsOf algs)).sup k := by
  intro fuel hf
  obtain ⟨p0, hp0, hr0⟩ := hne
  have hp0R : p0.1 ∈ readersOf (pairsOf algs) := (mem_readersOf _ _).mpr ⟨p0, ⟨hp0, hr0⟩, rfl⟩
  have hkM : k p0.1 ≤ (readersOf (pairsOf algs)).sup k := Finset.le_sup hp0R
  have h1M : 1 ≤ (readersOf (pairsOf algs)).sup k :=
    le_trans (hprof p0 hp0 hr0).1 hkM
  have hallk : ∀ c, (∀ p ∈ pairsOf algs, p.2.isReader = true → k p.1 ≤ c) ↔
      (readersOf (pairsOf algs)).sup k ≤ c := by
    intro c
    constructor
    · intro hall
      apply Finset.sup_le
      intro j hj
      rcases (mem_readersOf _ _).mp hj with ⟨p, ⟨hpm, hpr⟩, rfl⟩
      exact hall p hpm hpr
    · intro hMc p hpm hpr
      have hkp : k p.1 ≤ (readersOf (pairsOf algs)).sup k :=
        Finset.le_sup ((mem_readersOf _ _).mpr ⟨p, ⟨hpm, hpr⟩, rfl⟩)
      omega
  have hstop : (iterCycle (pairsOf algs) (initState algs)
      ((readersOf (pairsOf algs)).sup k)).running = ∅ :=
    (iter_empty_iff algs k hns hprof _).mpr ((hallk _).mpr (Nat.le_refl _))
  have hrun : ∀ c, 1 ≤ c → c < (readersOf (pairsOf algs)).sup k →
      (iterCycle (pairsOf algs) (initState algs) c).running ≠ ∅ := by
    intro c h1 h2 hemp
    have := (hallk c).mp ((iter_empty_iff algs k hns hprof c).mp hemp)
    omega
  obtain ⟨l, hl, hlc, _⟩ := runLoop_stops (pairsOf algs) _ (initState algs) h1M hstop hrun fuel hf
  exact ⟨l, hl, hlc⟩

end SelectorKernel

namespace SelectorKernel

/-- Claim C2. -/
theorem c2_cycle_count_and_termination (algs : List Alg)
    (hns : NoSkipP (pairsOf algs)) :
    (∀ k : Nat → Nat,
      (∀ p ∈ pairsOf algs, p.2.isReader = true → ReaderProfile p.2 (k p.1)) →
      (∃ p ∈ pairsOf algs, p.2.isReader = true) →
      ∀ fuel, (readersOf (pairsOf algs)).sup k ≤ fuel →
        ∃ l, processLoop algs fuel = some l ∧
          l.cycles = (readersOf (pairsOf algs)).sup k) ∧
    (Terminates algs ↔
      ∀ p ∈ pairsOf algs, p.2.isReader = true →
        ∃ n, (p.2).execute n = Status.EndOfFile) := by
  constructor
  · intro k hprof hne
    exact loop_stops_at_sup algs k hns hprof hne
  · constructor
    · rintro ⟨fuel, l, hl⟩ p hp hr
      by_contra hno
      push_neg at hno
      obtain ⟨h1, h2, h3⟩ := runLoop_some_spec (pairsOf algs) fuel (initState algs) l hl
      have hmem : p.1 ∈ (iterCycle (pairsOf algs) (initState algs) l.cycles).running := by
        apply iter_mem_of_no_eof
        · intro q hq hqi n
          have hqp : q.2 = p.2 := by
            refine nodup_fst_inj (pairsOf algs) (withIdx_fst_nodup algs 0) p.1 q.2 p.2 ?_ ?_
            · have hq2 : (p.1, q.2) = q := by
                rw [← hqi]
              rw [hq2]
              exact hq
            · have hp2 : (p.1, p.2) = p := rfl
              rw [hp2]
              exact hp
          rw [hqp]
          exact hno n
        · exact (mem_readersOf _ _).mpr ⟨p, ⟨hp, hr⟩, rfl⟩
      rw [← h2, h3] at hmem
      exact absurd hmem (Finset.not_mem_empty _)
    · intro hall
      by_cases hne : ∃ p ∈ pairsOf algs, p.2.isReader = true
      · have hch : ∀ i : Nat, ∃ m : Nat, ∀ p ∈ pairsOf algs, p.1 = i →
            p.2.isReader = true → ReaderProfile p.2 m := by
          intro i
          by_cases hex : ∃ p, p ∈ pairsOf algs ∧ p.1 = i ∧ p.2.isReader = true
          · obtain ⟨p0, hp0, hp0i, hp0r⟩ := hex
            have hex0 : ∃ n, (p0.2).execute n = Status.EndOfFile := hall p0 hp0 hp0r
            refine ⟨Nat.find hex0 + 1, ?_⟩
            intro p hp hpi hpr
            have hpe : p.2 = p0.2 := by
              refine nodup_fst_inj (pairsOf algs) (withIdx_fst_nodup algs 0) i p.2 p0.2 ?_ ?_
              · have hp2 : (i, p.2) = p := by
                  rw [← hpi]
                rw [hp2]
                exact hp
              · have hp02 : (i, p0.2) = p0 := by
                  rw [← hp0i]
                rw [hp02]
                exact hp0
            rw [hpe]
            refine ⟨by omega, ?_, ?_⟩
            · intro n hn
              have hne2 := Nat.find_min hex0 (show n < Nat.find hex0 by omega)
              rcases status_cases ((p0.2).execute n) with h | h | h
              · exact h
              · exact absurd h (hns p0 hp0 n)
              · exact absurd h hne2
            · simpa using Nat.find_spec hex0
          · exact ⟨1, fun p hp hpi hpr => absurd ⟨p, hp, hpi, hpr⟩ hex⟩
        choose k hk using hch
        obtain ⟨l, hl, _⟩ := loop_stops_at_sup algs k hns
          (fun p hp hr => hk p.1 p hp rfl hr) hne
          ((readersOf (pairsOf algs)).sup k) (Nat.le_refl _)
        exact ⟨_, l, hl⟩
      · have hR : readersOf (pairsOf algs) = ∅ := by
          apply Finset.eq_empty_of_forall_not_mem
          intro j hj
          rcases (mem_readersOf _ _).mp hj with ⟨p, ⟨hpm, hpr⟩, _⟩
          exact hne ⟨p, hpm, hpr⟩
        have h1 : (runCycle (pairsOf algs) (initState algs)).state.running = ∅ := by
          have hsub := runCycle_running_subset (pairsOf algs) (initState algs)
          have h0 : (initState algs).running = ∅ := hR
          rw [h0] at hsub
          exact Finset.subset_empty.mp hsub
        refine ⟨1, ⟨1, (runCycle (pairsOf algs) (initState algs)).state,
          [(runCycle (pairsOf algs) (initState algs)).trace]⟩, ?_⟩
        show runLoop (pairsOf algs) 1 (initState algs) = _
        rw [runLoop_succ, if_pos h1]

/-- Claim C2 witness. -/
theorem c2_witness :
    ∃ l, processLoop [rdr2, rdr3] 3 = some l ∧ l.cycles = 3 := by
  have hns : NoSkipP (pairsOf [rdr2, rdr3]) := by
    intro p hp n
    have hps : p = (0, rdr2) ∨ p = (1, rdr3) := by
      simpa [pairsOf, withIdx] using hp
    rcases hps with rfl | rfl
    · by_cases h : n + 1 < 2 <;> simp [rdr2, h]
    · by_cases h : n + 1 < 3 <;> simp [rdr3, h]
  have hprof : ∀ p ∈ pairsOf [rdr2, rdr3], p.2.isReader = true →
      ReaderProfile p.2 ((fun i => i + 2) p.1) := by
    intro p hp _
    have hps : p = (0, rdr2) ∨ p = (1, rdr3) := by
      simpa [pairsOf, withIdx] using hp
    rcases hps with rfl | rfl
    · exact ⟨by decide, fun n hn => by simp [rdr2, hn], by decide⟩
    · exact ⟨by decide, fun n hn => by simp [rdr3, hn], by decide⟩
  have hne : ∃ p ∈ pairsOf [rdr2, rdr3], p.2.isReader = true :=
    ⟨(0, rdr2), List.mem_cons_self _ _, rfl⟩
  obtain ⟨l, hl, hc⟩ := (c2_cycle_count_and_termination [rdr2, rdr3] hns).1
    (fun i => i + 2) hprof hne 3 (by decide)
  exact ⟨l, hl, hc.trans (by decide)⟩

end SelectorKernel
